import Mathlib

/-!
Shallow embedding of the `SessionSummary` namespace of the repository
(`src/unnamed/part_005`, lines 553-883): the diff-ordering routine
`orderDiffs`, the session-level summarization `summarizeSession` with its
sequencing-token staleness checks, the message-level summarization
`summarizeMessage`, and the `summarize` dispatcher that runs both sub-tasks.

External collaborators (the `Snapshot` diff provider, the `Storage` key-value
store, the `Provider` model resolver, the `LLM` streaming gateway, the `Bus`
event channel) are modelled as explicit inputs/oracles; persisted and
published data are modelled as explicit state and effect lists.

JavaScript specifics carried over faithfully:
- `Number.isFinite` normalization (`safe`): numbers are `Option Int`, `none`
  standing for a non-finite value, normalized to 0.
- `new Map(diffs.map(d => [d.file, d]))`: later entries overwrite earlier
  ones, so lookup returns the last diff with a given path.
- `Array.prototype.sort()` on strings sorts lexicographically; since the
  sorted arrangement of a list of strings is unique as a list, it is embedded
  as insertion sort under `String` order.
- `String.prototype.trim` / regex `\s`: the JS whitespace set, embedded
  explicitly.
-/

namespace VaultSummary

/-- A JS number that may be non-finite: `none` models `NaN`/`Infinity`. -/
def JSNum : Type := Option Int

instance : DecidableEq JSNum := by unfold JSNum; infer_instance

/-- Source lines 596/614: `const safe = (n) => (Number.isFinite(n) ? n : 0)`. -/
def safe (n : JSNum) : Int := n.getD 0

/-- One file's change between two snapshots (`Snapshot.FileDiff` as used by
`orderDiffs`: path, addition/deletion counts, full before/after contents). -/
structure FileDiff where
  file : String
  additions : JSNum
  deletions : JSNum
  before : String
  after : String
deriving DecidableEq

/-- The JS whitespace class (`\\s`, also the set removed by `String.trim`):
space, tab, line feed, vertical tab, form feed, carriage return, no-break
space, Ogham space mark, the U+2000..U+200A range, line separator, paragraph
separator, narrow no-break space, medium mathematical space, ideographic
space, and the byte-order mark. -/
def jsWhitespace (c : Char) : Bool :=
  c.toNat ∈ ([0x20, 0x09, 0x0a, 0x0b, 0x0c, 0x0d, 0xa0, 0x1680,
    0x2028, 0x2029, 0x202f, 0x205f, 0x3000, 0xfeff] : List Nat) ∨
  (0x2000 ≤ c.toNat ∧ c.toNat ≤ 0x200a)

/-- Implements `String.prototype.trim` on a character list. -/
def trimChars (cs : List Char) : List Char :=
  ((cs.dropWhile jsWhitespace).reverse.dropWhile jsWhitespace).reverse

/-- Implements `line.trim()`. -/
def jsTrim (s : String) : String := ⟨trimChars s.data⟩

/-- Implements `line.replace(/^[-*]\s+/, "")`: a leading `-` or `*` followed by at least
one whitespace char is removed together with that whitespace run. -/
def stripBullet (cs : List Char) : List Char :=
  match cs with
  | c :: rest =>
    if (c = '-' ∨ c = '*') ∧ (rest.headD 'x' |> jsWhitespace) then
      rest.dropWhile jsWhitespace
    else cs
  | [] => cs

/-- Implements `line.replace(/^\d+[.)]\s+/, "")`: leading digits, a `.` or `)`, and a
whitespace run are removed. -/
def stripNumbering (cs : List Char) : List Char :=
  let ds := cs.takeWhile Char.isDigit
  if ds = [] then cs
  else
    match cs.drop ds.length with
    | p :: rest =>
      if (p = '.' ∨ p = ')') ∧ (rest.headD 'x' |> jsWhitespace) then
        rest.dropWhile jsWhitespace
      else cs
    | [] => cs

/-- The newline separator used by the signature join and the line split. -/
def nlStr : String := "\n"

/-- The empty string (absent text, empty gateway result, blank title). -/
def emptyText : String := ""

/-- The three quote characters of the regexes on lines 706-707. -/
def quoteChars : List Char := ['\'', '"', Char.ofNat 96]

/-- Implements `line.replace(/^['"`]/, "")`: one leading quote char is removed. -/
def stripLeadQuote (cs : List Char) : List Char :=
  match cs with
  | c :: rest => if quoteChars.contains c then rest else cs
  | [] => cs

/-- Implements `line.replace(/['"`,]$/, "")`: one trailing quote char or comma. -/
def stripTrailQuote (cs : List Char) : List Char :=
  match cs.reverse with
  | c :: rest => if quoteChars.contains c ∨ c = ',' then rest.reverse else cs
  | [] => cs

/-- The per-line decoration stripping of lines 702-709: bullet, numbering,
leading quote, trailing quote/comma, then `trim()`. -/
def stripDecor (s : String) : String :=
  ⟨trimChars (stripTrailQuote (stripLeadQuote (stripNumbering (stripBullet s.data))))⟩

/-- Line 710: `(line.includes("\t") ? (line.split("\t")[0] ?? "") : line).trim()`. -/
def tabHead (s : String) : String :=
  if s.data.contains '\t' then ⟨trimChars (s.data.takeWhile (· ≠ '\t'))⟩
  else jsTrim s

/-- First-occurrence deduplication with a `seen` accumulator (lines 712-716). -/
def dedupGo (seen : List String) : List String → List String
  | [] => []
  | x :: xs => if x ∈ seen then dedupGo seen xs else x :: dedupGo (x :: seen) xs

/-- Deduplicate preserving the first occurrence of each string. -/
def dedupFirst (l : List String) : List String := dedupGo [] l

/-- Implements `text.split("\n")` on a character list: accumulate the current line,
emit it at each newline; the final accumulator is always emitted, so the
result is never empty (`"".split("\n")` is `[""]`). -/
def splitLinesGo (acc : List Char) : List Char → List (List Char)
  | [] => [acc.reverse]
  | c :: rest =>
    if c = '\n' then acc.reverse :: splitLinesGo [] rest
    else splitLinesGo (c :: acc) rest

/-- Implements `text.split("\n")` (line 699). -/
def jsSplitLines (s : String) : List String :=
  (splitLinesGo [] s.data).map (fun cs => ⟨cs⟩)

/-- Lines 698-716: split the gateway text into lines, trim, drop empties,
strip decoration and tab-separated suffixes, keep only known input file
paths, deduplicate keeping first occurrences. -/
def parseOrder (text : String) (files : List String) : List String :=
  dedupFirst
    ((((jsSplitLines text).map jsTrim).filter (· ≠ "")).map
        (fun line => tabHead (stripDecor line)) |>.filter
      (fun line => files.contains line))

/-- Strict lexicographic comparison of character lists by code point, the
order JS string comparison uses (code points and UTF-16 code units agree on
the basic multilingual plane). -/
def charsLtB : List Char → List Char → Bool
  | [], [] => false
  | [], _ :: _ => true
  | _ :: _, [] => false
  | a :: as, b :: bs => if a = b then charsLtB as bs else Nat.blt a.toNat b.toNat

/-- The string order used by `Array.prototype.sort()`, as a `Prop`. -/
def strLe (a b : String) : Prop := charsLtB b.data a.data = false

instance (a b : String) : Decidable (strLe a b) := by unfold strLe; infer_instance

/-- Models `Array.prototype.sort()` on strings: the sorted rearrangement (unique as
a list of strings), embedded as insertion sort under lexicographic order. -/
def sortStrings (l : List String) : List String :=
  List.insertionSort strLe l

/-- One entry of the content signature (line 617):
`file:additions:deletions:before.length:after.length` with normalized
counts. -/
def sigEntry (d : FileDiff) : String :=
  d.file ++ ":" ++ toString (safe d.additions) ++ ":" ++ toString (safe d.deletions)
    ++ ":" ++ toString d.before.length ++ ":" ++ toString d.after.length

/-- The order-independent content signature of a diff list (lines 615-619):
map to entries, sort, join with newlines. -/
def sig (l : List FileDiff) : String :=
  String.intercalate nlStr (sortStrings (l.map sigEntry))

/-- Models `new Map(input.diffs.map((d) => [d.file, d])).get(f)`: the last diff of
the list carrying file path `f`, if any (line 622). -/
def lastLookup (diffs : List FileDiff) (f : String) : Option FileDiff :=
  diffs.reverse.find? (fun d => d.file = f)

/-- Line 623: the previously stored order with each path replaced by the
current diff carrying that path, entries whose path is gone dropped. -/
def cachedOf (diffs prev : List FileDiff) : List FileDiff :=
  prev.filterMap (fun d => lastLookup diffs d.file)

/-- Line 624: the `stable` candidate — the cache reduction, available only
when it covers every current diff and every previously stored one. -/
def stableOf (diffs prev : List FileDiff) : Option (List FileDiff) :=
  let cached := cachedOf diffs prev
  if cached.length = diffs.length ∧ cached.length = prev.length then some cached
  else none

/-- Line 628: `const fallback = stable ?? input.diffs`. -/
def fallbackOf (diffs prev : List FileDiff) : List FileDiff :=
  (stableOf diffs prev).getD diffs

/-- Line 626: the cache fast-path condition — `stable` exists and the content
signatures of the stored and the current diffs agree. -/
def fastPath (diffs prev : List FileDiff) : Prop :=
  (stableOf diffs prev).isSome ∧ sig prev = sig diffs

instance (diffs prev : List FileDiff) : Decidable (fastPath diffs prev) := by
  unfold fastPath; infer_instance

/-- Message roles relevant to the routine (`m.info.role` checks). -/
inductive Role where
  | user
  | assistant
deriving DecidableEq

/-- A resolved model (`Provider` result: provider and model identifiers). -/
structure LModel where
  providerID : String
  modelID : String
deriving DecidableEq

/-- The `Provider` collaborator: each resolver may fail (`.catch` sites treat
failure as "no model"), modelled as `Option`-valued oracles. -/
structure Providers where
  smallModel : String → Option LModel
  getModel : String → String → Option LModel
  defaultModel : Option LModel

/-- A message part, reduced to the constructors the routine inspects. -/
inductive MsgPart where
  | text (content : String) (synthetic : Bool)
  | stepStart (snapshot : Option String)
  | stepFinish (snapshot : Option String) (reason : String)
  | patch (files : List String)
  | tool (status : String) (output : String)
deriving DecidableEq

/-- A message-summary record (`summary` field: title, body, diffs). -/
structure MsgSummary where
  title : Option String
  body : Option String
  diffs : Option (List FileDiff)
deriving DecidableEq

/-- The message info fields the routine reads. -/
structure MsgInfo where
  id : String
  role : Role
  parentID : Option String
  providerID : String
  modelID : String
  summary : Option MsgSummary
deriving DecidableEq

/-- A message together with its parts (`MessageV2.WithParts`). -/
structure MsgWithParts where
  info : MsgInfo
  parts : List MsgPart
deriving DecidableEq

/-- Lines 630-633: the most recent user-authored message, if any. -/
def lastUser (msgs : List MsgWithParts) : Option MsgInfo :=
  (msgs.reverse.find? (fun m => m.info.role = Role.user)).map (·.info)

/-- Lines 734-737: the most recent assistant message, if any. -/
def lastAssistant (msgs : List MsgWithParts) : Option MsgInfo :=
  (msgs.reverse.find? (fun m => m.info.role = Role.assistant)).map (·.info)

/-- Embeds `sortModel` (lines 733-751): prefer the small model of the latest
assistant's provider, else that assistant's own model; with no assistant,
resolve from the default model the same way. Every resolver failure is
caught and treated as "no model". -/
def sortModel (ps : Providers) (msgs : List MsgWithParts) : Option LModel :=
  match lastAssistant msgs with
  | some a => (ps.smallModel a.providerID).orElse (fun _ => ps.getModel a.providerID a.modelID)
  | none =>
    match ps.defaultModel with
    | none => none
    | some dm => (ps.smallModel dm.providerID).orElse (fun _ => ps.getModel dm.providerID dm.modelID)

/-- Gateway behavior for one ordering call: the stream promise may reject
(line 688 `.catch`), the text promise may reject (line 695 `.catch`), the
8-second timer may fire and abort the call (line 666, surfacing as a
rejected text promise), or a text may be returned. -/
inductive Gw where
  | streamFail
  | textFail
  | timeout
  | ok (text : String)
deriving DecidableEq

/-- The text `orderDiffs` ends up with when a stream was obtained: the
returned text, or `""` when the text promise rejected or was aborted. -/
def gwTextOf : Gw → String
  | Gw.ok t => t
  | _ => ""

/-- Implements `if (aborts.get(id) === abort) aborts.delete(id)` (line 669). -/
def cleanReg (r : Option Nat) (h : Nat) : Option Nat :=
  if r = some h then none else r

/-- Environment of one `orderDiffs` invocation: the inputs of the call, the
storage read result (`[]` when the read failed, line 621), and the oracles
for the external collaborators. `reg` is the per-session entry of the
`aborts` registry on entry; `h` passed separately identifies the fresh
`AbortController` of this invocation. -/
structure OrderEnv where
  diffs : List FileDiff
  prev : List FileDiff
  messages : List MsgWithParts
  providers : Providers
  gw : Gw
  reg : Option Nat

/-- Result of one `orderDiffs` invocation: the returned order, the number of
gateway calls made, and the per-session registry entry on exit. -/
structure OrderOut where
  result : List FileDiff
  gwCalls : Nat
  reg : Option Nat
deriving DecidableEq

/-- Lines 696-723: the candidate result built from gateway text — parsed
files in parsed order (each replaced by its diff), followed by the diffs the
model did not mention, in input order. `none` when the parse is empty or the
constructed list's length differs from the input count (the defensive
invariant check); in both cases `orderDiffs` falls back. -/
def llmResult (diffs : List FileDiff) (text : String) : Option (List FileDiff) :=
  let order := parseOrder text (diffs.map (·.file))
  if order = [] then none
  else
    let sorted := order.filterMap (lastLookup diffs)
    let rest := diffs.filter (fun d => ¬ order.contains d.file)
    let result := sorted ++ rest
    if result.length ≠ diffs.length then none else some result

/-- Embeds `orderDiffs` (lines 611-731). Control flow, in source order: the
`length <= 1` short-circuit; the cache fast path; the fallback candidate;
the user-message and model guards; registration of the fresh cancellation
handle; the gateway call with its failure handling and registry cleanup
(`clean` runs on the stream failure path and in the `finally` of the text
await, before any of the remaining returns); parsing and the empty-parse and
length-mismatch guards via `llmResult`. -/
def orderDiffs (env : OrderEnv) (h : Nat) : OrderOut :=
  if env.diffs.length ≤ 1 then ⟨env.diffs, 0, env.reg⟩
  else if fastPath env.diffs env.prev then
    ⟨(stableOf env.diffs env.prev).getD [], 0, env.reg⟩
  else
    let fallback := fallbackOf env.diffs env.prev
    match lastUser env.messages with
    | none => ⟨fallback, 0, env.reg⟩
    | some _ =>
      match sortModel env.providers env.messages with
      | none => ⟨fallback, 0, env.reg⟩
      | some _ =>
        -- `aborts.set(id, abort)`; every exit below runs `clean()`.
        let reg1 : Option Nat := some h
        let regOut := cleanReg reg1 h
        match env.gw with
        | Gw.streamFail => ⟨fallback, 1, regOut⟩
        | g => ⟨(llmResult env.diffs (gwTextOf g)).getD fallback, 1, regOut⟩

/-- Per-session in-memory and durable state seen by `summarizeSession`:
the sequencing counter entry (`seq.get(id)`), the cancellation registry
entry (`aborts.get(id)`), and the persisted ordering
(`Storage ["session_diff", id]`). -/
structure SessState where
  seqv : Option Nat
  registry : Option Nat
  storedDiff : Option (List FileDiff)
deriving DecidableEq

/-- Session-summary aggregate written to the session record (lines 597-603). -/
structure Summary where
  additions : Int
  deletions : Int
  files : Nat
deriving DecidableEq

/-- Observable effects of the session-level sub-task: the session-record
update, the persisted ordering write, and the published diff event. -/
inductive SessEff where
  | updateSummary (s : Summary)
  | writeDiff (ordered : List FileDiff)
  | publishDiff (ordered : List FileDiff)
deriving DecidableEq

/-- Lines 573-579: advance the sequencing counter and capture the new value
as this invocation's version; abort and drop any registered cancellation
handle. Returns the new state and the captured version. -/
def startSession (st : SessState) : SessState × Nat :=
  let version := st.seqv.getD 0 + 1
  ({ st with seqv := some version, registry := none }, version)

/-- Lines 596-602: the aggregate computed from the final ordering. -/
def summaryOf (ordered : List FileDiff) : Summary :=
  { additions := ordered.foldl (fun sum x => sum + safe x.additions) 0
    deletions := ordered.foldl (fun sum x => sum + safe x.deletions) 0
    files := ordered.length }

/-- Environment of one session-level sub-task run: the loaded messages, the
result of the external snapshot diff computation, the collaborator oracles
for the ordering call, the fresh handle identity, and whether the
`Storage.write` of the ordering fails (a storage failure propagates out of
the sub-task). -/
structure SessEnv where
  messages : List MsgWithParts
  rawDiffs : List FileDiff
  providers : Providers
  gw : Gw
  h : Nat
  writeFail : Bool

/-- Lines 581-587: the set of file paths appearing in `patch` parts. The
`path.relative(Instance.worktree, ·)` normalization is an external path
operation; patch parts are modelled as already carrying the normalized
relative paths. -/
def patchFiles (msgs : List MsgWithParts) : List String :=
  (msgs.flatMap (·.parts)).flatMap fun p =>
    match p with
    | MsgPart.patch files => files
    | _ => []

/-- Lines 594-608: the continuation after the `orderDiffs` suspension point.
If the captured version no longer matches the session's sequencing counter,
abort silently: no state change, no effects. Otherwise update the session
record, persist the ordering (a failing write raises after the record
update), and publish the diff event. -/
def sessionResume2 (st : SessState) (version : Nat) (ordered : List FileDiff)
    (writeFail : Bool) : SessState × List SessEff × Bool :=
  if st.seqv ≠ some version then (st, [], false)
  else if writeFail then (st, [SessEff.updateSummary (summaryOf ordered)], true)
  else
    ({ st with storedDiff := some ordered },
      [SessEff.updateSummary (summaryOf ordered), SessEff.writeDiff ordered,
        SessEff.publishDiff ordered],
      false)

/-- Lines 588-608: the continuation after the `computeDiff` suspension point.
If the captured version no longer matches, abort silently; otherwise filter
the raw diffs to patch-mentioned files, run `orderDiffs` (which reads the
persisted ordering and uses the cancellation registry), and continue at the
second staleness check. The `Bool` of the result reports a raised storage
failure. -/
def sessionResume1 (st : SessState) (version : Nat) (env : SessEnv) :
    SessState × List SessEff × Bool :=
  if st.seqv ≠ some version then (st, [], false)
  else
    let files := patchFiles env.messages
    let diffs := env.rawDiffs.filter (fun d => files.contains d.file)
    let o := orderDiffs
      { diffs := diffs, prev := st.storedDiff.getD [], messages := env.messages,
        providers := env.providers, gw := env.gw, reg := st.registry } env.h
    sessionResume2 { st with registry := o.reg } version o.result env.writeFail

/-- Embeds `summarizeSession` (lines 572-609) end to end, with the external
suspension points resolved by the environment: capture a version, then run
the two staleness-checked continuations. -/
def sessionRun (st : SessState) (env : SessEnv) : SessState × List SessEff × Bool :=
  let (st1, version) := startSession st
  sessionResume1 st1 version env

/-- Errors the message-level sub-task can raise: the two non-null-assertion
lookups of lines 757 and 766, a provider-resolution failure (lines 767-769
have no catch), and an exhausted gateway call (title or body generation). -/
inductive MsgErr where
  | lookupTarget
  | lookupAssistant
  | provider
  | gateway
deriving DecidableEq

/-- Observable effect of the message-level sub-task: one
`Session.updateMessage` persisting the given info record. -/
inductive MsgEff where
  | updateMessage (info : MsgInfo)
deriving DecidableEq

/-- Environment of one message-level sub-task run: the target message id,
the loaded messages, the external diff computation's result for the filtered
slice, the provider oracle outcome for the assistant's small-or-full model
(`Except` because these calls are uncaught), and the title/body gateway
outcomes (model choice for each call is absorbed into its oracle). -/
structure MsgEnv where
  messageID : String
  messages : List MsgWithParts
  msgDiffs : List FileDiff
  small : Except Unit (Option LModel)
  gwTitle : Except Unit String
  gwBody : Except Unit String

/-- Line 754-756: the slice relevant to the target message — the target
itself plus assistant messages whose parent is the target. -/
def msgSlice (messageID : String) (messages : List MsgWithParts) : List MsgWithParts :=
  messages.filter fun m =>
    m.info.id = messageID ∨ (m.info.role = Role.assistant ∧ m.info.parentID = some messageID)

/-- Line 771: the first non-synthetic text part of the target message. -/
def findTextPart (parts : List MsgPart) : Option (String × Bool) :=
  (parts.find? fun p =>
    match p with
    | MsgPart.text _ synthetic => !synthetic
    | _ => false).map fun p =>
      match p with
      | MsgPart.text content synthetic => (content, synthetic)
      | _ => ("", false)

/-- Lines 802-806: some assistant message of the slice carries a
`step-finish` part whose reason is not `"tool-calls"`. -/
def hasNonToolFinish (msgs : List MsgWithParts) : Bool :=
  msgs.any fun m =>
    m.info.role = Role.assistant ∧ m.parts.any fun p =>
      match p with
      | MsgPart.stepFinish _ reason => reason ≠ "tool-calls"
      | _ => false

/-- Embeds `summarizeMessage` (lines 753-844). Effects accumulate until the first
uncaught failure; the non-null assertions on the two `find` calls surface as
`lookupTarget` / `lookupAssistant` errors. Prompt construction (including
the in-memory pruning of completed tool outputs) only feeds the gateway and
is absorbed into the gateway oracles. -/
def summarizeMessage (env : MsgEnv) : List MsgEff × Option MsgErr :=
  let msgs := msgSlice env.messageID env.messages
  match msgs.find? (fun m => m.info.id = env.messageID) with
  | none => ([], some MsgErr.lookupTarget)
  | some target =>
    let sum0 := (target.info.summary).getD ⟨none, none, none⟩
    let user1 : MsgInfo :=
      { target.info with summary := some ({ sum0 with diffs := some env.msgDiffs }) }
    let eff1 := [MsgEff.updateMessage user1]
    match msgs.find? (fun m => m.info.role = Role.assistant) with
    | none => (eff1, some MsgErr.lookupAssistant)
    | some _ =>
      match env.small with
      | Except.error _ => (eff1, some MsgErr.provider)
      | Except.ok _ =>
        let titleStep : MsgInfo × List MsgEff × Option MsgErr :=
          if (findTextPart target.parts).isSome ∧ sum0.title.getD emptyText = emptyText then
            match env.gwTitle with
            | Except.error _ => (user1, eff1, some MsgErr.gateway)
            | Except.ok t =>
              let sum2 : MsgSummary := { sum0 with diffs := some env.msgDiffs, title := some t }
              let user2 : MsgInfo := { user1 with summary := some sum2 }
              (user2, eff1 ++ [MsgEff.updateMessage user2], none)
          else (user1, eff1, none)
        match titleStep with
        | (_, effs, some e) => (effs, some e)
        | (userNow, effs, none) =>
          if hasNonToolFinish msgs then
            if env.msgDiffs ≠ [] then
              match env.gwBody with
              | Except.error _ => (effs, some MsgErr.gateway)
              | Except.ok b =>
                let sumB : MsgSummary := userNow.summary.getD ⟨none, none, none⟩
                let userB : MsgInfo :=
                  if b ≠ "" then { userNow with summary := some ({ sumB with body := some b }) }
                  else userNow
                (effs ++ [MsgEff.updateMessage userB], none)
            else (effs ++ [MsgEff.updateMessage userNow], none)
          else (effs, none)

/-- A combined effect of the `summarize` dispatcher: one of the session-level
sub-task's effects or one of the message-level sub-task's effects. -/
inductive Eff where
  | sess (e : SessEff)
  | msg (e : MsgEff)
deriving DecidableEq

/-- Interleave two effect sequences under a boolean schedule (`true` takes
the next session effect): the cooperative event loop may serialize the two
concurrently started sub-tasks in any order, but loses no effect of either. -/
def scheduleMerge (sched : List Bool) : List Eff → List Eff → List Eff
  | [], ys => ys
  | xs, [] => xs
  | x :: xs, y :: ys =>
    match sched with
    | [] => x :: xs ++ y :: ys
    | true :: sc => x :: scheduleMerge sc xs (y :: ys)
    | false :: sc => y :: scheduleMerge sc (x :: xs) ys

/-- Embeds `summarize` (lines 558-570): both sub-tasks are started eagerly by
`Promise.all` on the same loaded message snapshot and run to completion on
the event loop regardless of the other's outcome; a rejection of either
makes the dispatcher reject, but does not cancel the other. The observable
trace is an arbitrary interleaving of both sub-tasks' effects, and the
dispatcher reports both sub-tasks' outcomes. -/
def summarizeRun (sched : List Bool) (st : SessState) (se : SessEnv) (me : MsgEnv) :
    List Eff × Bool × Option MsgErr :=
  let s := sessionRun st se
  let m := summarizeMessage me
  (scheduleMerge sched (s.2.1.map Eff.sess) (m.1.map Eff.msg), s.2.2, m.2)

/-- Project a combined effect back to the session-level sub-task. -/
def projSess : Eff → Option SessEff
  | Eff.sess e => some e
  | _ => none

/-- Project a combined effect back to the message-level sub-task. -/
def projMsg : Eff → Option MsgEff
  | Eff.msg e => some e
  | _ => none

/-! ### Concrete instances used by witnesses and scenario checks -/

/-- The `b.ts` diff of the spec's concrete scenario (+1 −0, modified). -/
def exB : FileDiff := ⟨"b.ts", some 1, some 0, "x", "y"⟩

/-- The `a.ts` diff of the spec's concrete scenario (+2 −1, modified). -/
def exA : FileDiff := ⟨"a.ts", some 2, some 1, "u", "v"⟩

/-- A provider oracle that resolves a small model from the default provider. -/
def exProviders : Providers :=
  ⟨fun _ => some ⟨"p", "small"⟩, fun _ _ => none, some ⟨"p", "m"⟩⟩

/-- A single user message, carrying no parts. -/
def exUser : MsgWithParts := ⟨⟨"m1", Role.user, none, "", "", none⟩, []⟩

/-- Scenario gateway text naming both files. -/
def textAB : String := "a.ts\nb.ts"

/-- Scenario gateway text naming only `a.ts`. -/
def textA : String := "a.ts"

/-- Scenario gateway text naming an unknown file. -/
def textC : String := "c.ts"

/-- The scenario environment: diffs `[b.ts, a.ts]`, no prior cache, one user
message, a resolvable model, and the given gateway behavior. -/
def exEnv (g : Gw) : OrderEnv := ⟨[exB, exA], [], [exUser], exProviders, g, none⟩

/-- A provider oracle with no resolvable model at all. -/
def noProviders : Providers := ⟨fun _ => none, fun _ _ => none, none⟩

/-- The diff on path `a` used by the stored-duplicate counterexample. -/
def c1A : FileDiff := ⟨"a", some 1, some 0, "x", "y"⟩

/-- The diff on path `b` used by the stored-duplicate counterexample. -/
def c1B : FileDiff := ⟨"b", some 1, some 0, "x", "y"⟩

/-- Counterexample environment: current diffs `[a, b]` with distinct paths,
but a previously stored ordering `[a, a]` with a duplicated path, and no
user message (so the fallback is returned). -/
def c1Env : OrderEnv := ⟨[c1A, c1B], [c1A, c1A], [], noProviders, Gw.ok emptyText, none⟩

/-- The two diffs of the same-signature collision: equal path, counts and
content lengths, different `before` contents. -/
def c9a : FileDiff := ⟨"f.ts", some 1, some 0, "ab", ""⟩

/-- Same signature entry as `c9a` but different `before` contents. -/
def c9b : FileDiff := ⟨"f.ts", some 1, some 0, "cd", ""⟩

/-- A two-diff list whose joined signature also arises from a one-diff list
with a crafted path (newline/colon field-boundary ambiguity). -/
def c9L1 : List FileDiff := [⟨"a", some 1, some 0, "x", "y"⟩, ⟨"b", some 1, some 0, "x", "y"⟩]

/-- One diff whose path embeds a full signature entry and a newline, so its
single signature entry equals the joined signature of `c9L1`. -/
def c9L2 : List FileDiff := [⟨"a:1:0:1:1\nb", some 1, some 0, "x", "y"⟩]


/-- A session-level environment used by staleness and dispatcher witnesses. -/
def exSessEnv : SessEnv := ⟨[], [], noProviders, Gw.streamFail, 0, false⟩


/-- A message environment with no message matching the target id. -/
def exMsgEnv : MsgEnv :=
  ⟨"target", [], [], Except.ok none, Except.ok emptyText, Except.ok emptyText⟩


/-! ### Order facts about the string comparison and the signature sort -/

theorem char_eq_of_toNat_eq {a b : Char} (h : a.toNat = b.toNat) : a = b :=
  Char.eq_of_val_eq (UInt32.eq_of_toBitVec_eq (BitVec.eq_of_toNat_eq h))

theorem charsLtB_irrefl : ∀ l : List Char, charsLtB l l = false := by
  intro l
  induction l with
  | nil => rfl
  | cons x xs ih => simp [charsLtB, ih]

theorem charsLtB_asymm : ∀ a b : List Char,
    charsLtB a b = true → charsLtB b a = true → False := by
  intro a
  induction a with
  | nil => intro b h1 h2; cases b <;> simp [charsLtB] at h1 h2
  | cons x xs ih =>
    intro b h1 h2
    cases b with
    | nil => simp [charsLtB] at h1
    | cons y ys =>
      by_cases hxy : x = y
      · subst hxy
        simp [charsLtB] at h1 h2
        exact ih ys h1 h2
      · have hyx : ¬ y = x := fun h => hxy h.symm
        simp [charsLtB, hxy, hyx, Nat.blt_eq] at h1 h2
        omega

theorem blt_false_iff (a b : Nat) : Nat.blt a b = false ↔ ¬ (a < b) := by
  rw [← Nat.blt_eq]
  cases Nat.blt a b <;> simp

theorem charsLtB_conn : ∀ a b : List Char,
    charsLtB a b = false → charsLtB b a = false → a = b := by
  intro a
  induction a with
  | nil => intro b h1 _; cases b with
    | nil => rfl
    | cons y ys => simp [charsLtB] at h1
  | cons x xs ih =>
    intro b h1 h2
    cases b with
    | nil => simp [charsLtB] at h2
    | cons y ys =>
      by_cases hxy : x = y
      · subst hxy
        simp [charsLtB] at h1 h2
        rw [ih ys h1 h2]
      · have hyx : ¬ y = x := fun h => hxy h.symm
        simp only [charsLtB, if_neg hxy, if_neg hyx, blt_false_iff] at h1 h2
        exact absurd (char_eq_of_toNat_eq (by omega)) hxy

theorem charsLtB_trans : ∀ a b c : List Char,
    charsLtB a b = true → charsLtB b c = true → charsLtB a c = true := by
  intro a
  induction a with
  | nil =>
    intro b c h1 h2
    cases b with
    | nil => simp [charsLtB] at h1
    | cons y ys =>
      cases c with
      | nil => simp [charsLtB] at h2
      | cons z zs => simp [charsLtB]
  | cons x xs ih =>
    intro b c h1 h2
    cases b with
    | nil => simp [charsLtB] at h1
    | cons y ys =>
      cases c with
      | nil => simp [charsLtB] at h2
      | cons z zs =>
        by_cases hxy : x = y
        · subst hxy
          by_cases hxz : x = z
          · subst hxz
            simp [charsLtB] at h1 h2 ⊢
            exact ih ys zs h1 h2
          · simp [charsLtB, hxz] at h2 ⊢
            exact h2
        · by_cases hyz : y = z
          · subst hyz
            simp [charsLtB, hxy] at h1 ⊢
            exact h1
          · simp [charsLtB, hxy, hyz, Nat.blt_eq] at h1 h2
            by_cases hxz : x = z
            · subst hxz; omega
            · simp [charsLtB, hxz, Nat.blt_eq]
              omega

theorem strLe_trans : ∀ a b c : String, strLe a b → strLe b c → strLe a c := by
  intro a b c h1 h2
  unfold strLe at h1 h2 ⊢
  cases hbc : charsLtB b.data c.data with
  | false =>
    have hbceq := charsLtB_conn _ _ hbc h2
    rw [← hbceq]
    exact h1
  | true =>
    cases hca : charsLtB c.data a.data with
    | false => rfl
    | true => exact absurd (charsLtB_trans _ _ _ hbc hca) (by simp [h1])

theorem strLe_antisymm : ∀ a b : String, strLe a b → strLe b a → a = b := by
  intro a b h1 h2
  unfold strLe at h1 h2
  exact String.ext (charsLtB_conn _ _ h2 h1)

theorem strLe_total : ∀ a b : String, strLe a b ∨ strLe b a := by
  intro a b
  unfold strLe
  cases hba : charsLtB b.data a.data with
  | false => exact Or.inl rfl
  | true =>
    cases hab : charsLtB a.data b.data with
    | false => exact Or.inr rfl
    | true => exact absurd (charsLtB_asymm _ _ hab hba) (fun h => h)

/-- The signature sort returns a permutation of its input. -/
theorem sortStrings_perm (l : List String) : (sortStrings l).Perm l :=
  List.perm_insertionSort strLe l

/-- Permutation-invariance of the signature sort: sorting is a function of
the multiset of strings (sorted lists of strings are unique as lists). -/
theorem sortStrings_congr {l l2 : List String} (h : l.Perm l2) :
    sortStrings l = sortStrings l2 := by
  haveI : IsTrans String strLe := ⟨strLe_trans⟩
  haveI : IsAntisymm String strLe := ⟨strLe_antisymm⟩
  haveI : IsTotal String strLe := ⟨strLe_total⟩
  exact List.eq_of_perm_of_sorted
    ((List.perm_insertionSort strLe l).trans (h.trans (List.perm_insertionSort strLe l2).symm))
    (List.sorted_insertionSort strLe l) (List.sorted_insertionSort strLe l2)

/-- The content signature is order-independent: permuted diff lists have
equal signatures. -/
theorem sig_congr {l l2 : List FileDiff} (h : l.Perm l2) : sig l = sig l2 := by
  unfold sig
  rw [sortStrings_congr (h.map sigEntry)]

/-! ### Facts about deduplication, lookup, and the cache reduction -/

theorem dedupGo_nodup : ∀ (seen l : List String),
    (dedupGo seen l).Nodup ∧ ∀ x ∈ dedupGo seen l, x ∉ seen := by
  intro seen l
  induction l generalizing seen with
  | nil => simp [dedupGo]
  | cons x xs ih =>
    by_cases hx : x ∈ seen
    · simp only [dedupGo, if_pos hx]
      exact ih seen
    · simp only [dedupGo, if_neg hx]
      refine ⟨List.nodup_cons.mpr ⟨fun hmem => ?_, (ih (x :: seen)).1⟩, ?_⟩
      · exact ((ih (x :: seen)).2 x hmem) (List.mem_cons_self x seen)
      · intro y hy
        rcases List.mem_cons.mp hy with rfl | hy2
        · exact hx
        · intro hys
          exact (ih (x :: seen)).2 y hy2 (List.mem_cons_of_mem _ hys)

theorem dedupGo_subset : ∀ (seen l : List String) (x : String),
    x ∈ dedupGo seen l → x ∈ l := by
  intro seen l
  induction l generalizing seen with
  | nil => simp [dedupGo]
  | cons y ys ih =>
    intro x hx
    by_cases hy : y ∈ seen
    · simp only [dedupGo, if_pos hy] at hx
      exact List.mem_cons_of_mem _ (ih seen x hx)
    · simp only [dedupGo, if_neg hy] at hx
      rcases List.mem_cons.mp hx with rfl | hx2
      · exact List.mem_cons_self x ys
      · exact List.mem_cons_of_mem _ (ih (y :: seen) x hx2)

theorem dedupFirst_nodup (l : List String) : (dedupFirst l).Nodup :=
  (dedupGo_nodup [] l).1

theorem dedupFirst_subset {l : List String} {x : String} (h : x ∈ dedupFirst l) : x ∈ l :=
  dedupGo_subset [] l x h

/-- Every parsed line is a known input file path, and the parsed list has no
duplicates. -/
theorem parseOrder_nodup (text : String) (files : List String) :
    (parseOrder text files).Nodup :=
  dedupFirst_nodup _

theorem parseOrder_subset {text : String} {files : List String} {x : String}
    (h : x ∈ parseOrder text files) : x ∈ files := by
  have := dedupFirst_subset h
  have := List.of_mem_filter this
  simpa using this

/-- A successful lookup returns a diff of the list carrying the looked-up
path. -/
theorem lastLookup_eq_some {diffs : List FileDiff} {f : String} {d : FileDiff}
    (h : lastLookup diffs f = some d) : d ∈ diffs ∧ d.file = f := by
  unfold lastLookup at h
  have hmem := List.mem_of_find?_eq_some h
  have hp := List.find?_some h
  refine ⟨List.mem_reverse.mp hmem, ?_⟩
  exact of_decide_eq_true hp

/-- In a list whose file paths are distinct, looking up a member's path
returns that member. -/
theorem lastLookup_self {diffs : List FileDiff} {d : FileDiff}
    (hnd : (diffs.map (·.file)).Nodup) (hd : d ∈ diffs) :
    lastLookup diffs d.file = some d := by
  unfold lastLookup
  have hrev : d ∈ diffs.reverse := List.mem_reverse.mpr hd
  rcases h : diffs.reverse.find? (fun x => x.file = d.file) with _ | e
  · exact absurd (List.find?_eq_none.mp h d hrev (by simp)) (by simp)
  · have he := lastLookup_eq_some h
    have : e = d := by
      have hinj := List.inj_on_of_nodup_map hnd
      exact hinj (List.mem_of_find?_eq_some h |> List.mem_reverse.mp) hd he.2
    rw [h, this]

/-- If a path has any lookup result at all, the path occurs in the list. -/
theorem lastLookup_isSome_iff {diffs : List FileDiff} {f : String} :
    (lastLookup diffs f).isSome ↔ f ∈ diffs.map (·.file) := by
  constructor
  · intro h
    rcases ho : lastLookup diffs f with _ | d
    · rw [ho] at h; simp at h
    · have := lastLookup_eq_some ho
      exact this.2 ▸ List.mem_map_of_mem (·.file) this.1
  · intro h
    rcases List.mem_map.mp h with ⟨d, hd, hdf⟩
    unfold lastLookup
    rw [List.find?_isSome]
    exact ⟨d, List.mem_reverse.mpr hd, by simp [hdf]⟩

/-- The file paths of the cache reduction form a sublist of the stored
paths. -/
theorem cachedOf_map_sublist (diffs : List FileDiff) : ∀ prev : List FileDiff,
    ((cachedOf diffs prev).map (·.file)).Sublist (prev.map (·.file)) := by
  intro prev
  induction prev with
  | nil => simp [cachedOf]
  | cons p ps ih =>
    unfold cachedOf at ih ⊢
    rcases h : lastLookup diffs p.file with _ | d
    · simp only [List.filterMap_cons, h, List.map_cons]
      exact ih.cons _
    · simp only [List.filterMap_cons, h, List.map_cons]
      rw [(lastLookup_eq_some h).2]
      exact ih.cons₂ _

/-- Every entry of the cache reduction is one of the current diffs. -/
theorem cachedOf_subset {diffs prev : List FileDiff} {d : FileDiff}
    (h : d ∈ cachedOf diffs prev) : d ∈ diffs := by
  unfold cachedOf at h
  rcases List.mem_filterMap.mp h with ⟨p, _, hp⟩
  exact (lastLookup_eq_some hp).1

/-- When the stored paths are distinct, the cache reduction has distinct
entries. -/
theorem cachedOf_nodup {diffs prev : List FileDiff}
    (hprev : (prev.map (·.file)).Nodup) : (cachedOf diffs prev).Nodup := by
  have hfiles : ((cachedOf diffs prev).map (·.file)).Nodup :=
    (cachedOf_map_sublist diffs prev).nodup hprev
  exact hfiles.of_map _

/-! ### The permutation property of the ordering routine -/

theorem stableOf_eq_some {diffs prev c : List FileDiff}
    (h : stableOf diffs prev = some c) :
    c = cachedOf diffs prev ∧ c.length = diffs.length ∧ c.length = prev.length := by
  simp only [stableOf] at h
  split at h
  · rename_i hc
    obtain rfl := Option.some_inj.mp h
    exact ⟨rfl, hc.1, hc.2⟩
  · exact absurd h (by simp)

/-- A `stable` cache reduction is a permutation of the current diffs, as long
as the stored ordering has distinct file paths. -/
theorem stableOf_perm {diffs prev c : List FileDiff}
    (hp : (prev.map (·.file)).Nodup) (h : stableOf diffs prev = some c) :
    c.Perm diffs := by
  obtain ⟨hc, hlen, _⟩ := stableOf_eq_some h
  subst hc
  have hnd : (cachedOf diffs prev).Nodup := cachedOf_nodup hp
  have hsub : cachedOf diffs prev ⊆ diffs := fun x hx => cachedOf_subset hx
  exact (hnd.subperm hsub).perm_of_length_le (le_of_eq hlen.symm)

/-- The fallback candidate is a permutation of the current diffs, as long as
the stored ordering has distinct file paths. -/
theorem fallbackOf_perm {diffs prev : List FileDiff}
    (hp : (prev.map (·.file)).Nodup) : (fallbackOf diffs prev).Perm diffs := by
  unfold fallbackOf
  rcases h : stableOf diffs prev with _ | c
  · exact List.Perm.refl diffs
  · exact stableOf_perm hp h

/-- Replacing each parsed path by its diff recovers exactly the parsed paths
when every parsed path occurs among the diffs. -/
theorem filterMap_lastLookup_map_file {diffs : List FileDiff} :
    ∀ {order : List String}, (∀ f ∈ order, f ∈ diffs.map (·.file)) →
    (order.filterMap (lastLookup diffs)).map (·.file) = order := by
  intro order
  induction order with
  | nil => intro _; simp
  | cons f fs ih =>
    intro hsub
    have hf : f ∈ diffs.map (·.file) := hsub f (List.mem_cons_self f fs)
    have hs : (lastLookup diffs f).isSome := lastLookup_isSome_iff.mpr hf
    rcases hl : lastLookup diffs f with _ | d
    · rw [hl] at hs; simp at hs
    · simp only [List.filterMap_cons, hl, List.map_cons]
      rw [(lastLookup_eq_some hl).2, ih (fun g hg => hsub g (List.mem_cons_of_mem f hg))]

/-- Membership in the parsed-and-replaced list: exactly the diffs whose path
was parsed, when the current paths are distinct. -/
theorem mem_filterMap_lastLookup {diffs : List FileDiff} {order : List String}
    {d : FileDiff} (hd : (diffs.map (·.file)).Nodup) :
    d ∈ order.filterMap (lastLookup diffs) ↔ d ∈ diffs ∧ d.file ∈ order := by
  constructor
  · intro h
    rcases List.mem_filterMap.mp h with ⟨f, hf, hlook⟩
    obtain ⟨hmem, hfile⟩ := lastLookup_eq_some hlook
    exact ⟨hmem, hfile ▸ hf⟩
  · rintro ⟨hmem, hfile⟩
    exact List.mem_filterMap.mpr ⟨d.file, hfile, lastLookup_self hd hmem⟩

/-- The parsed-then-unmentioned construction of lines 720-722 is a
permutation of the input diffs whenever the input paths are distinct and
every parsed path is an input path. -/
theorem construction_perm {diffs : List FileDiff} {order : List String}
    (hd : (diffs.map (·.file)).Nodup) (hord : order.Nodup)
    (hsub : ∀ f ∈ order, f ∈ diffs.map (·.file)) :
    (order.filterMap (lastLookup diffs) ++
      diffs.filter (fun d => ¬ order.contains d.file)).Perm diffs := by
  have hdiffs : diffs.Nodup := hd.of_map _
  have hsorted_files : (order.filterMap (lastLookup diffs)).map (·.file) = order :=
    filterMap_lastLookup_map_file hsub
  have hsorted_nd : (order.filterMap (lastLookup diffs)).Nodup := by
    have : ((order.filterMap (lastLookup diffs)).map (·.file)).Nodup := by
      rw [hsorted_files]; exact hord
    exact this.of_map _
  have hperm1 : (order.filterMap (lastLookup diffs)).Perm
      (diffs.filter (fun d => order.contains d.file)) := by
    apply List.Subperm.antisymm
    · apply (hsorted_nd.subperm)
      intro x hx
      obtain ⟨hmem, hfile⟩ := (mem_filterMap_lastLookup hd).mp hx
      exact List.mem_filter.mpr ⟨hmem, by simpa using hfile⟩
    · apply (hdiffs.filter _).subperm
      intro x hx
      obtain ⟨hmem, hfile⟩ := List.mem_filter.mp hx
      exact (mem_filterMap_lastLookup hd).mpr ⟨hmem, by simpa using hfile⟩
  have hsplit : (diffs.filter (fun d => order.contains d.file) ++
      diffs.filter (fun d => ¬ order.contains d.file)).Perm diffs := by
    have h3 := List.filter_append_perm (fun d => order.contains d.file) diffs
    have hrest : diffs.filter (fun d => ¬ order.contains d.file) =
        diffs.filter (fun x => ! (fun d => order.contains d.file) x) := by
      apply List.filter_congr
      intro x _
      simp
    rw [hrest]
    exact h3
  exact (hperm1.append_right _).trans hsplit

/-- A constructed gateway result is a permutation of the input diffs, when
the input paths are distinct. -/
theorem llmResult_perm {diffs : List FileDiff} {text : String} {r : List FileDiff}
    (hd : (diffs.map (·.file)).Nodup) (h : llmResult diffs text = some r) :
    r.Perm diffs := by
  simp only [llmResult] at h
  split at h
  · exact absurd h (by simp)
  · split at h
    · exact absurd h (by simp)
    · have hr := Option.some_inj.mp h
      rw [← hr]
      exact construction_perm hd (parseOrder_nodup _ _)
        (fun f hf => parseOrder_subset hf)

/-- Under distinct input paths, the defensive length check of line 723 never
fires: a nonempty parse always yields a constructed result. -/
theorem llmResult_eq_some {diffs : List FileDiff} {text : String}
    (hd : (diffs.map (·.file)).Nodup)
    (hne : parseOrder text (diffs.map (·.file)) ≠ []) :
    llmResult diffs text = some
      ((parseOrder text (diffs.map (·.file))).filterMap (lastLookup diffs) ++
        diffs.filter (fun d => ¬ (parseOrder text (diffs.map (·.file))).contains d.file)) := by
  have hperm : ((parseOrder text (diffs.map (·.file))).filterMap (lastLookup diffs) ++
      diffs.filter (fun d => ¬ (parseOrder text (diffs.map (·.file))).contains d.file)).Perm
      diffs :=
    construction_perm hd (parseOrder_nodup _ _) (fun f hf => parseOrder_subset hf)
  simp only [llmResult]
  rw [if_neg hne, if_neg (not_ne_iff.mpr hperm.length_eq)]

/-- Every `orderDiffs` result is a permutation of the input diffs, provided
both the input diff set and the previously stored ordering have distinct
file paths. -/
theorem orderDiffs_perm {env : OrderEnv} {h : Nat}
    (hd : (env.diffs.map (·.file)).Nodup) (hp : (env.prev.map (·.file)).Nodup) :
    (orderDiffs env h).result.Perm env.diffs := by
  simp only [orderDiffs]
  split
  · exact List.Perm.refl _
  split
  · rename_i hfp
    rcases hs : stableOf env.diffs env.prev with _ | c
    · exact absurd hfp (by simp [fastPath, hs])
    · simpa [hs] using stableOf_perm hp hs
  rcases lastUser env.messages with _ | u
  · exact fallbackOf_perm hp
  rcases sortModel env.providers env.messages with _ | m
  · exact fallbackOf_perm hp
  rcases env.gw with _ | _ | _ | t
  · exact fallbackOf_perm hp
  · dsimp only
    rcases hl : llmResult env.diffs (gwTextOf Gw.textFail) with _ | r
    · simpa [hl] using fallbackOf_perm hp
    · simpa [hl] using llmResult_perm hd hl
  · dsimp only
    rcases hl : llmResult env.diffs (gwTextOf Gw.timeout) with _ | r
    · simpa [hl] using fallbackOf_perm hp
    · simpa [hl] using llmResult_perm hd hl
  · dsimp only
    rcases hl : llmResult env.diffs (gwTextOf (Gw.ok t)) with _ | r
    · simpa [hl] using fallbackOf_perm hp
    · simpa [hl] using llmResult_perm hd hl

/-! ### Claims -/

/-- C8: `orderDiffs` on the empty diff set returns the empty sequence, and on
any singleton diff set returns it unchanged — in every environment (any
stored ordering, messages, providers, gateway behavior, registry), with zero
gateway calls and the registry untouched. -/
theorem C8_short_circuit :
    (∀ (prev : List FileDiff) (messages : List MsgWithParts) (providers : Providers)
      (gw : Gw) (reg : Option Nat) (h : Nat),
      orderDiffs ⟨[], prev, messages, providers, gw, reg⟩ h = ⟨[], 0, reg⟩) ∧
    (∀ (d : FileDiff) (prev : List FileDiff) (messages : List MsgWithParts)
      (providers : Providers) (gw : Gw) (reg : Option Nat) (h : Nat),
      orderDiffs ⟨[d], prev, messages, providers, gw, reg⟩ h = ⟨[d], 0, reg⟩) := by
  constructor
  · intro prev messages providers gw reg h
    rfl
  · intro d prev messages providers gw reg h
    rfl

/-- C1 (counterexample): as stated — "regardless of whatever ordering was
previously stored" — the claim fails. With current diffs `[a, b]` (distinct
paths) but a stored ordering `[a, a]` repeating one path, the fallback
candidate is `[a, a]`: the result duplicates `a`, omits `b`, and is not a
permutation of the input, even though the input paths are unique. -/
theorem C1_completeness_counterexample :
    (c1Env.diffs.map (·.file)).Nodup ∧
    (orderDiffs c1Env 3).result.map (·.file) = ["a", "a"] ∧
    ¬ (orderDiffs c1Env 3).result.Perm c1Env.diffs := by
  decide

/-- C1 (amended): for every diff set with unique file paths, and regardless
of the gateway's behavior and of the registry state, provided the previously
stored ordering also has unique file paths (the data-model invariant for
persisted ordering results), `orderDiffs` returns a permutation of the input
diffs: the same diffs, no duplicates, no omissions, and length equal to the
input count. -/
theorem C1_completeness_amended (env : OrderEnv) (h : Nat)
    (hd : (env.diffs.map (·.file)).Nodup) (hp : (env.prev.map (·.file)).Nodup) :
    (orderDiffs env h).result.Perm env.diffs ∧
    ((orderDiffs env h).result.map (·.file)).Nodup ∧
    (orderDiffs env h).result.length = env.diffs.length := by
  have hperm : (orderDiffs env h).result.Perm env.diffs := orderDiffs_perm hd hp
  exact ⟨hperm, ((hperm.map (·.file)).nodup_iff).mpr hd, hperm.length_eq⟩

theorem C1_completeness_amended_witness :
    ((exEnv Gw.streamFail).diffs.map (·.file)).Nodup ∧
    (orderDiffs (exEnv Gw.streamFail) 3).result.Perm (exEnv Gw.streamFail).diffs :=
  ⟨by decide, (C1_completeness_amended (exEnv Gw.streamFail) 3 (by decide) (by decide)).1⟩

/-- C9: the content signature is not injective. Two different diff multisets
collide: (i) equal-length but different `before` contents (lengths, not
contents, are hashed); (ii) a crafted path embedding `:`-separated fields
and a newline makes one diff's signature equal a two-diff joined signature
(ambiguous field boundaries). -/
theorem C9_signature_collisions :
    (sig [c9a] = sig [c9b] ∧ c9a ≠ c9b) ∧
    (sig c9L1 = sig c9L2 ∧ c9L1.length ≠ c9L2.length) := by
  decide

/-- The empty gateway text parses to no lines at all. -/
theorem parseOrder_empty (files : List String) : parseOrder emptyText files = [] := rfl

/-- The empty gateway text never yields a constructed result. -/
theorem llmResult_empty (diffs : List FileDiff) : llmResult diffs emptyText = none := by
  simp [llmResult, parseOrder_empty]

/-- C6: every `orderDiffs` invocation that reaches the registration of its
cancellation handle (more than one diff, no cache fast path, a user message,
a resolvable model) leaves the per-session registry empty on return — on the
success path, on gateway stream failure, on text failure, and on the
8-second timeout (which aborts the call): the invocation's own handle is
never still registered after it returns. -/
theorem C6_registry_cleared (env : OrderEnv) (h : Nat)
    (hlen : 1 < env.diffs.length) (hfp : ¬ fastPath env.diffs env.prev)
    (hu : (lastUser env.messages).isSome)
    (hm : (sortModel env.providers env.messages).isSome) :
    (orderDiffs env h).reg = none := by
  simp only [orderDiffs]
  rw [if_neg (by omega), if_neg hfp]
  obtain ⟨u, hu2⟩ := Option.isSome_iff_exists.mp hu
  obtain ⟨m, hm2⟩ := Option.isSome_iff_exists.mp hm
  rw [hu2, hm2]
  rcases env.gw with _ | _ | _ | t <;> simp [cleanReg]

theorem C6_registry_cleared_witness :
    (1 < (exEnv Gw.timeout).diffs.length ∧
      ¬ fastPath (exEnv Gw.timeout).diffs (exEnv Gw.timeout).prev ∧
      (lastUser (exEnv Gw.timeout).messages).isSome ∧
      (sortModel (exEnv Gw.timeout).providers (exEnv Gw.timeout).messages).isSome) ∧
    (orderDiffs (exEnv Gw.timeout) 5).reg = none :=
  ⟨by decide,
    C6_registry_cleared (exEnv Gw.timeout) 5 (by decide) (by decide) (by decide) (by decide)⟩

/-- C3: whenever the cache fast path does not apply and the ranking cannot be
produced — no user-authored message, no resolvable model, gateway stream
failure, text failure, the 8-second timeout, or a parse that yields no valid
constructed result (empty or length-mismatched) — `orderDiffs` returns the
fallback candidate: the `stable` cache reduction when available
(`stableOf`), else the raw input order. -/
theorem C3_fallback (env : OrderEnv) (h : Nat)
    (hlen : 1 < env.diffs.length) (hfp : ¬ fastPath env.diffs env.prev)
    (hcond : lastUser env.messages = none ∨ sortModel env.providers env.messages = none ∨
      env.gw = Gw.streamFail ∨ env.gw = Gw.textFail ∨ env.gw = Gw.timeout ∨
      llmResult env.diffs (gwTextOf env.gw) = none) :
    (orderDiffs env h).result = fallbackOf env.diffs env.prev := by
  simp only [orderDiffs]
  rw [if_neg (by omega), if_neg hfp]
  rcases hu : lastUser env.messages with _ | u
  · rfl
  rcases hm : sortModel env.providers env.messages with _ | m
  · rfl
  have hgw : env.gw = Gw.streamFail ∨ env.gw = Gw.textFail ∨ env.gw = Gw.timeout ∨
      llmResult env.diffs (gwTextOf env.gw) = none := by
    rcases hcond with hc | hc | hc | hc | hc | hc
    · rw [hu] at hc; cases hc
    · rw [hm] at hc; cases hc
    · exact Or.inl hc
    · exact Or.inr (Or.inl hc)
    · exact Or.inr (Or.inr (Or.inl hc))
    · exact Or.inr (Or.inr (Or.inr hc))
  rcases hg : env.gw with _ | _ | _ | t
  · rfl
  · dsimp only
    rw [show gwTextOf Gw.textFail = emptyText from rfl, llmResult_empty]
    rfl
  · dsimp only
    rw [show gwTextOf Gw.timeout = emptyText from rfl, llmResult_empty]
    rfl
  · dsimp only
    have hnone : llmResult env.diffs (gwTextOf (Gw.ok t)) = none := by
      rcases hgw with hc | hc | hc | hc
      · rw [hg] at hc; cases hc
      · rw [hg] at hc; cases hc
      · rw [hg] at hc; cases hc
      · rw [hg] at hc; exact hc
    rw [hnone]
    rfl

theorem C3_fallback_witness :
    (1 < (exEnv (Gw.ok textC)).diffs.length ∧
      ¬ fastPath (exEnv (Gw.ok textC)).diffs (exEnv (Gw.ok textC)).prev ∧
      llmResult (exEnv (Gw.ok textC)).diffs (gwTextOf (Gw.ok textC)) = none) ∧
    (orderDiffs (exEnv (Gw.ok textC)) 5).result =
      fallbackOf (exEnv (Gw.ok textC)).diffs (exEnv (Gw.ok textC)).prev :=
  ⟨by decide,
    C3_fallback (exEnv (Gw.ok textC)) 5 (by decide) (by decide)
      (Or.inr (Or.inr (Or.inr (Or.inr (Or.inr (by decide))))))⟩

/-- Replacing each member of a sublist-of-`diffs` by the lookup of its own
path is the identity when the paths of `diffs` are distinct. -/
theorem filterMap_lastLookup_id {diffs : List FileDiff}
    (hd : (diffs.map (·.file)).Nodup) :
    ∀ {r : List FileDiff}, (∀ y ∈ r, y ∈ diffs) →
      r.filterMap (fun d => lastLookup diffs d.file) = r := by
  intro r
  induction r with
  | nil => intro _; rfl
  | cons x xs ih =>
    intro hsub
    rw [List.filterMap_cons, lastLookup_self hd (hsub x (List.mem_cons_self x xs))]
    rw [ih (fun y hy => hsub y (List.mem_cons_of_mem x hy))]

/-- If a diff list is a permutation of `diffs` whose paths are distinct, its
cache reduction against `diffs` is itself. -/
theorem cachedOf_of_perm {diffs r : List FileDiff}
    (hd : (diffs.map (·.file)).Nodup) (hperm : r.Perm diffs) :
    cachedOf diffs r = r :=
  filterMap_lastLookup_id hd (fun _ hy => hperm.subset hy)

/-- C4: (i) whenever the stored ordering covers exactly the current file set
(the `stable` condition: the cache reduction has the same length as both the
current diffs and the stored ordering) and the content signatures of stored
and current diffs agree, `orderDiffs` returns the cache reduction
immediately, with zero gateway calls and the registry untouched (the routine
performs no writes at all — persistence is the caller's).
(ii) Consequently, ordering is idempotent under no change: for unique-path
inputs, if the result of one call is persisted and a second call runs with
the same diff set and that stored ordering, the second call returns the
identical ordering with zero gateway calls. -/
theorem C4_cache_fastpath :
    (∀ (env : OrderEnv) (h : Nat), 1 < env.diffs.length →
      fastPath env.diffs env.prev →
      orderDiffs env h = ⟨cachedOf env.diffs env.prev, 0, env.reg⟩) ∧
    (∀ (env : OrderEnv) (h h2 : Nat),
      (env.diffs.map (·.file)).Nodup → (env.prev.map (·.file)).Nodup →
      orderDiffs { env with prev := (orderDiffs env h).result } h2 =
        ⟨(orderDiffs env h).result, 0, env.reg⟩) := by
  constructor
  · intro env h hlen hfp
    simp only [orderDiffs]
    rw [if_neg (by omega), if_pos hfp]
    obtain ⟨c, hc⟩ := Option.isSome_iff_exists.mp hfp.1
    rw [hc]
    simp [(stableOf_eq_some hc).1]
  · intro env h h2 hd hp
    by_cases hlen : env.diffs.length ≤ 1
    · have h1 : orderDiffs env h = ⟨env.diffs, 0, env.reg⟩ := by
        simp only [orderDiffs]
        rw [if_pos hlen]
      rw [h1]
      simp only [orderDiffs]
      rw [if_pos hlen]
    · have hperm0 : (orderDiffs env h).result.Perm env.diffs := orderDiffs_perm hd hp
      generalize hgen : (orderDiffs env h).result = r at hperm0 ⊢
      have hcached : cachedOf env.diffs r = r := cachedOf_of_perm hd hperm0
      have hstable : stableOf env.diffs r = some r := by
        unfold stableOf
        rw [hcached]
        rw [if_pos ⟨hperm0.length_eq, rfl⟩]
      have hfp2 : fastPath env.diffs r := by
        unfold fastPath
        rw [hstable, sig_congr hperm0]
        exact ⟨rfl, rfl⟩
      show orderDiffs ⟨env.diffs, r, env.messages, env.providers, env.gw, env.reg⟩ h2 =
        ⟨r, 0, env.reg⟩
      simp only [orderDiffs]
      rw [if_neg (by simpa using hlen), if_pos hfp2, hstable]
      rfl

theorem C4_cache_fastpath_witness :
    (1 < ([exB, exA] : List FileDiff).length ∧
      fastPath [exB, exA] [exA, exB] ∧
      (([exB, exA] : List FileDiff).map (·.file)).Nodup) ∧
    orderDiffs ⟨[exB, exA], [exA, exB], [], noProviders, Gw.streamFail, none⟩ 4 =
      ⟨cachedOf [exB, exA] [exA, exB], 0, none⟩ ∧
    orderDiffs { exEnv Gw.streamFail with
        prev := (orderDiffs (exEnv Gw.streamFail) 4).result } 6 =
      ⟨(orderDiffs (exEnv Gw.streamFail) 4).result, 0, none⟩ :=
  ⟨by decide,
    C4_cache_fastpath.1 ⟨[exB, exA], [exA, exB], [], noProviders, Gw.streamFail, none⟩ 4
      (by decide) (by decide),
    C4_cache_fastpath.2 (exEnv Gw.streamFail) 4 6 (by decide) (by decide)⟩

/-- C5: when the gateway returns text, the result is built from the parsed,
decoration-stripped, deduplicated lines that name input files: (i) an empty
parse yields the fallback; (ii) a nonempty parse (under unique input paths)
yields exactly the parsed diffs in parsed order followed by the unmentioned
diffs in input order; (iii) a parse whose constructed result fails the
length check yields the fallback. Concretely, for diffs `[b.ts, a.ts]` with
no prior cache: text `"a.ts\nb.ts"` gives `[a.ts, b.ts]`; text `"a.ts"`
gives `[a.ts, b.ts]`; text `"c.ts"` gives `[b.ts, a.ts]`. -/
theorem C5_parse_construction :
    (∀ (env : OrderEnv) (h : Nat) (t : String), 1 < env.diffs.length →
      ¬ fastPath env.diffs env.prev → (lastUser env.messages).isSome →
      (sortModel env.providers env.messages).isSome → env.gw = Gw.ok t →
      ((parseOrder t (env.diffs.map (·.file)) = [] →
          (orderDiffs env h).result = fallbackOf env.diffs env.prev) ∧
        ((env.diffs.map (·.file)).Nodup → parseOrder t (env.diffs.map (·.file)) ≠ [] →
          (orderDiffs env h).result =
            (parseOrder t (env.diffs.map (·.file))).filterMap (lastLookup env.diffs) ++
              env.diffs.filter
                (fun d => ¬ (parseOrder t (env.diffs.map (·.file))).contains d.file)) ∧
        (llmResult env.diffs t = none →
          (orderDiffs env h).result = fallbackOf env.diffs env.prev))) ∧
    (orderDiffs (exEnv (Gw.ok textAB)) 7).result = [exA, exB] ∧
    (orderDiffs (exEnv (Gw.ok textA)) 7).result = [exA, exB] ∧
    (orderDiffs (exEnv (Gw.ok textC)) 7).result = [exB, exA] := by
  refine ⟨?_, by decide, by decide, by decide⟩
  intro env h t hlen hfp hu hm hgw
  obtain ⟨u, hu2⟩ := Option.isSome_iff_exists.mp hu
  obtain ⟨m, hm2⟩ := Option.isSome_iff_exists.mp hm
  have hres : (orderDiffs env h).result =
      (llmResult env.diffs t).getD (fallbackOf env.diffs env.prev) := by
    simp only [orderDiffs]
    rw [if_neg (by omega), if_neg hfp, hu2, hm2, hgw]
    rfl
  refine ⟨?_, ?_, ?_⟩
  · intro hempty
    rw [hres]
    have : llmResult env.diffs t = none := by
      simp [llmResult, hempty]
    rw [this]
    rfl
  · intro hd hne
    rw [hres, llmResult_eq_some hd hne]
    rfl
  · intro hnone
    rw [hres, hnone]
    rfl

theorem C5_parse_construction_witness :
    (1 < (exEnv (Gw.ok textA)).diffs.length ∧
      ¬ fastPath (exEnv (Gw.ok textA)).diffs (exEnv (Gw.ok textA)).prev ∧
      (lastUser (exEnv (Gw.ok textA)).messages).isSome ∧
      (sortModel (exEnv (Gw.ok textA)).providers (exEnv (Gw.ok textA)).messages).isSome ∧
      ((exEnv (Gw.ok textA)).diffs.map (·.file)).Nodup ∧
      parseOrder textA ((exEnv (Gw.ok textA)).diffs.map (·.file)) ≠ []) ∧
    (orderDiffs (exEnv (Gw.ok textA)) 7).result =
      (parseOrder textA ((exEnv (Gw.ok textA)).diffs.map (·.file))).filterMap
          (lastLookup (exEnv (Gw.ok textA)).diffs) ++
        (exEnv (Gw.ok textA)).diffs.filter
          (fun d => ¬ (parseOrder textA ((exEnv (Gw.ok textA)).diffs.map (·.file))).contains
            d.file) :=
  ⟨by decide,
    ((C5_parse_construction.1 (exEnv (Gw.ok textA)) 7 textA (by decide) (by decide)
      (by decide) (by decide) rfl).2.1 (by decide) (by decide))⟩

/-- C2: staleness abandonment for the session-level sub-task.
(i) Starting a second invocation while an earlier one is suspended leaves
the session's sequencing counter different from the earlier invocation's
captured version (the counter only grows).
(ii) An invocation resuming at the post-`computeDiff` check with a stale
captured version returns the state unchanged, performs no effects (no
session-record update, no persisted ordering, no published event) and raises
nothing.
(iii) The same holds at the post-`orderDiffs` check.
(iv) Resuming never changes the sequencing counter, so later checks of the
overtaken invocation stay stale no matter how the second invocation's own
resumptions interleave.
(v) Composed: after a second `startSession`, the first invocation's
resumption aborts silently on the resulting state. -/
theorem C2_staleness_abandonment :
    (∀ st : SessState,
      ((startSession (startSession st).1).1).seqv ≠ some (startSession st).2) ∧
    (∀ (st : SessState) (v : Nat) (env : SessEnv),
      st.seqv ≠ some v → sessionResume1 st v env = (st, [], false)) ∧
    (∀ (st : SessState) (v : Nat) (ordered : List FileDiff) (wf : Bool),
      st.seqv ≠ some v → sessionResume2 st v ordered wf = (st, [], false)) ∧
    (∀ (st : SessState) (v : Nat) (env : SessEnv),
      (sessionResume1 st v env).1.seqv = st.seqv) ∧
    (∀ (st : SessState) (env : SessEnv),
      sessionResume1 (startSession (startSession st).1).1 (startSession st).2 env =
        ((startSession (startSession st).1).1, [], false)) := by
  have h2 : ∀ (st : SessState) (v : Nat) (env : SessEnv),
      st.seqv ≠ some v → sessionResume1 st v env = (st, [], false) := by
    intro st v env h
    simp only [sessionResume1]
    rw [if_pos h]
  have h1 : ∀ st : SessState,
      ((startSession (startSession st).1).1).seqv ≠ some (startSession st).2 := by
    intro st
    simp only [startSession, Option.getD_some]
    intro hcontra
    have := Option.some_inj.mp hcontra
    omega
  refine ⟨h1, h2, ?_, ?_, ?_⟩
  · intro st v ordered wf h
    simp only [sessionResume2]
    rw [if_pos h]
  · intro st v env
    simp only [sessionResume1]
    split
    · rfl
    · simp only [sessionResume2]
      split
      · rfl
      · split
        · rfl
        · rfl
  · intro st env
    exact h2 _ _ env (h1 st)

theorem C2_staleness_abandonment_witness :
    ((⟨some 2, none, none⟩ : SessState).seqv ≠ some 1) ∧
    sessionResume1 ⟨some 2, none, none⟩ 1 exSessEnv = (⟨some 2, none, none⟩, [], false) :=
  ⟨by decide, C2_staleness_abandonment.2.1 ⟨some 2, none, none⟩ 1 exSessEnv (by decide)⟩

/-- Projecting the session side of session-tagged effects is the identity. -/
theorem filterMap_projSess_sess (l : List SessEff) :
    l.filterMap (fun e => projSess (Eff.sess e)) = l := by
  induction l with
  | nil => rfl
  | cons x xs ih => simp [projSess, ih]

/-- Session projection drops message-tagged effects. -/
theorem filterMap_projSess_msg (l : List MsgEff) :
    l.filterMap (fun e => projSess (Eff.msg e)) = [] := by
  induction l with
  | nil => rfl
  | cons x xs ih => simp [projSess, ih]

/-- Projecting the message side of message-tagged effects is the identity. -/
theorem filterMap_projMsg_msg (l : List MsgEff) :
    l.filterMap (fun e => projMsg (Eff.msg e)) = l := by
  induction l with
  | nil => rfl
  | cons x xs ih => simp [projMsg, ih]

/-- Message projection drops session-tagged effects. -/
theorem filterMap_projMsg_sess (l : List SessEff) :
    l.filterMap (fun e => projMsg (Eff.sess e)) = [] := by
  induction l with
  | nil => rfl
  | cons x xs ih => simp [projMsg, ih]

/-- Interleaving keeps the session-side subsequence intact. -/
theorem scheduleMerge_projSess : ∀ (sched : List Bool) (xs : List SessEff)
    (ys : List MsgEff),
    (scheduleMerge sched (xs.map Eff.sess) (ys.map Eff.msg)).filterMap projSess = xs := by
  intro sched
  induction sched with
  | nil =>
    intro xs ys
    cases xs with
    | nil => simp [scheduleMerge, projSess, List.filterMap_map, Function.comp_def,
        filterMap_projSess_sess, filterMap_projSess_msg]
    | cons x xs2 =>
      cases ys with
      | nil => simp [scheduleMerge, projSess, List.filterMap_map, Function.comp_def,
        filterMap_projSess_sess, filterMap_projSess_msg]
      | cons y ys2 =>
        simp [scheduleMerge, projSess, List.filterMap_map, List.filterMap_append,
          Function.comp_def, filterMap_projSess_sess, filterMap_projSess_msg]
  | cons b sc ih =>
    intro xs ys
    cases xs with
    | nil => simp [scheduleMerge, projSess, List.filterMap_map, Function.comp_def,
        filterMap_projSess_sess, filterMap_projSess_msg]
    | cons x xs2 =>
      cases ys with
      | nil => simp [scheduleMerge, projSess, List.filterMap_map, Function.comp_def,
        filterMap_projSess_sess, filterMap_projSess_msg]
      | cons y ys2 =>
        cases b with
        | true =>
          simp only [List.map_cons, scheduleMerge, List.filterMap_cons]
          have := ih xs2 (y :: ys2)
          simp only [List.map_cons] at this
          simp [projSess, this]
        | false =>
          simp only [List.map_cons, scheduleMerge, List.filterMap_cons]
          have := ih (x :: xs2) ys2
          simp only [List.map_cons] at this
          simp [projSess, this]

/-- Interleaving keeps the message-side subsequence intact. -/
theorem scheduleMerge_projMsg : ∀ (sched : List Bool) (xs : List SessEff)
    (ys : List MsgEff),
    (scheduleMerge sched (xs.map Eff.sess) (ys.map Eff.msg)).filterMap projMsg = ys := by
  intro sched
  induction sched with
  | nil =>
    intro xs ys
    cases xs with
    | nil => simp [scheduleMerge, projMsg, List.filterMap_map, Function.comp_def,
        filterMap_projMsg_msg, filterMap_projMsg_sess]
    | cons x xs2 =>
      cases ys with
      | nil => simp [scheduleMerge, projMsg, List.filterMap_map, Function.comp_def,
        filterMap_projMsg_msg, filterMap_projMsg_sess]
      | cons y ys2 =>
        simp [scheduleMerge, projMsg, List.filterMap_map, List.filterMap_append,
          Function.comp_def, filterMap_projMsg_msg, filterMap_projMsg_sess]
  | cons b sc ih =>
    intro xs ys
    cases xs with
    | nil => simp [scheduleMerge, projMsg, List.filterMap_map, Function.comp_def,
        filterMap_projMsg_msg, filterMap_projMsg_sess]
    | cons x xs2 =>
      cases ys with
      | nil => simp [scheduleMerge, projMsg, List.filterMap_map, Function.comp_def,
        filterMap_projMsg_msg, filterMap_projMsg_sess]
      | cons y ys2 =>
        cases b with
        | true =>
          simp only [List.map_cons, scheduleMerge, List.filterMap_cons]
          have := ih xs2 (y :: ys2)
          simp only [List.map_cons] at this
          simp [projMsg, this]
        | false =>
          simp only [List.map_cons, scheduleMerge, List.filterMap_cons]
          have := ih (x :: xs2) ys2
          simp only [List.map_cons] at this
          simp [projMsg, this]

/-- C7: the dispatcher starts both sub-tasks eagerly and neither's failure
reaches the other. Under every event-loop interleaving, the trace of a
`summarize` run contains the message-level sub-task's effect sequence in
full and the session-level sub-task's effect sequence in full; and each
side's effects are unchanged when the other side's entire environment —
including its failure modes (missing lookups, provider or gateway errors,
storage write failure) — is replaced arbitrarily. -/
theorem C7_subtask_isolation :
    (∀ (sched : List Bool) (st : SessState) (se : SessEnv) (me : MsgEnv),
      (summarizeRun sched st se me).1.filterMap projMsg = (summarizeMessage me).1 ∧
      (summarizeRun sched st se me).1.filterMap projSess = (sessionRun st se).2.1) ∧
    (∀ (sched : List Bool) (st st2 : SessState) (se se2 : SessEnv) (me me2 : MsgEnv),
      (summarizeRun sched st se me).1.filterMap projMsg =
        (summarizeRun sched st2 se2 me).1.filterMap projMsg ∧
      (summarizeRun sched st se me).1.filterMap projSess =
        (summarizeRun sched st se me2).1.filterMap projSess) := by
  have hbase : ∀ (sched : List Bool) (st : SessState) (se : SessEnv) (me : MsgEnv),
      (summarizeRun sched st se me).1.filterMap projMsg = (summarizeMessage me).1 ∧
      (summarizeRun sched st se me).1.filterMap projSess = (sessionRun st se).2.1 := by
    intro sched st se me
    constructor
    · exact scheduleMerge_projMsg sched (sessionRun st se).2.1 (summarizeMessage me).1
    · exact scheduleMerge_projSess sched (sessionRun st se).2.1 (summarizeMessage me).1
  refine ⟨hbase, ?_⟩
  intro sched st st2 se se2 me me2
  constructor
  · rw [(hbase sched st se me).1, (hbase sched st2 se2 me).1]
  · rw [(hbase sched st se me).2, (hbase sched st se me2).2]

/-- C10: the message-level sub-task's non-null assertions. If the loaded
history has no message with the target id, the sub-task fails at the first
dereference; if the filtered slice (target plus assistant children) has no
assistant message, it fails at the second dereference (after having
persisted the diff attachment); and a run that completes without error
requires both a message with the target id and an assistant message in the
slice. -/
theorem C10_message_lookup_preconditions :
    (∀ env : MsgEnv, (¬ ∃ m ∈ env.messages, m.info.id = env.messageID) →
      (summarizeMessage env).2 = some MsgErr.lookupTarget) ∧
    (∀ env : MsgEnv, (∃ m ∈ env.messages, m.info.id = env.messageID) →
      (¬ ∃ m ∈ msgSlice env.messageID env.messages, m.info.role = Role.assistant) →
      (summarizeMessage env).2 = some MsgErr.lookupAssistant) ∧
    (∀ env : MsgEnv, (summarizeMessage env).2 = none →
      (∃ m ∈ env.messages, m.info.id = env.messageID) ∧
      (∃ m ∈ msgSlice env.messageID env.messages, m.info.role = Role.assistant)) := by
  refine ⟨?_, ?_, ?_⟩
  · intro env hno
    have hfind : (msgSlice env.messageID env.messages).find?
        (fun m => m.info.id = env.messageID) = none := by
      apply List.find?_eq_none.mpr
      intro x hx hpx
      exact hno ⟨x, List.mem_of_mem_filter hx, of_decide_eq_true hpx⟩
    simp [summarizeMessage, hfind]
  · intro env hex hnoa
    obtain ⟨m0, hm0mem, hm0id⟩ := hex
    have hmem_slice : m0 ∈ msgSlice env.messageID env.messages := by
      unfold msgSlice
      exact List.mem_filter.mpr ⟨hm0mem, by simp [hm0id]⟩
    have hsome : ((msgSlice env.messageID env.messages).find?
        (fun m => m.info.id = env.messageID)).isSome :=
      List.find?_isSome.mpr ⟨m0, hmem_slice, by simp [hm0id]⟩
    rcases hfind : (msgSlice env.messageID env.messages).find?
        (fun m => m.info.id = env.messageID) with _ | target
    · rw [hfind] at hsome
      simp at hsome
    · have hfa : (msgSlice env.messageID env.messages).find?
          (fun m => m.info.role = Role.assistant) = none := by
        apply List.find?_eq_none.mpr
        intro x hx hpx
        exact hnoa ⟨x, hx, of_decide_eq_true hpx⟩
      simp [summarizeMessage, hfind, hfa]
  · intro env hok
    simp only [summarizeMessage] at hok
    rcases hfind : (msgSlice env.messageID env.messages).find?
        (fun m => m.info.id = env.messageID) with _ | target
    · rw [hfind] at hok
      simp at hok
    · rcases hfa : (msgSlice env.messageID env.messages).find?
          (fun m => m.info.role = Role.assistant) with _ | amsg
      · rw [hfind, hfa] at hok
        simp at hok
      · have hp := List.find?_some hfind
        have hq := List.find?_some hfa
        exact ⟨⟨target, List.mem_of_mem_filter (List.mem_of_find?_eq_some hfind),
            of_decide_eq_true hp⟩,
          ⟨amsg, List.mem_of_find?_eq_some hfa, of_decide_eq_true hq⟩⟩

theorem C10_message_lookup_preconditions_witness :
    (¬ ∃ m ∈ exMsgEnv.messages, m.info.id = exMsgEnv.messageID) ∧
    (summarizeMessage exMsgEnv).2 = some MsgErr.lookupTarget :=
  ⟨by decide, C10_message_lookup_preconditions.1 exMsgEnv (by decide)⟩

end VaultSummary
